import Mathlib

/-!
Shallow embedding of `hypothesis_protobuf/module_conversion.py`, the
descriptor-to-strategy compiler of the hypothesis-protobuf repository,
together with proofs about the properties stated in the repository's
specification.

The embedding mirrors the Python source:
  * descriptors (message / field / enum) become inductive trees;
  * hypothesis strategies become an abstract syntax tree `Strategy`,
    given meaning by the `CanProduce` relation ("this strategy can
    produce this value");
  * Python exceptions become the `Exc` error type threaded through
    `Except`;
  * the environment is an association list from fully-qualified names to
    strategies, matching `find_strategy_in_env`, which scans the Python
    dict comparing `full_name`s (lookup hits the earliest entry, exactly
    like iteration order over a Python dict with identity keys).
-/

/-- Multiplicity labels of protobuf fields (`FieldDescriptor.LABEL_*`). -/
inductive FieldLabel where
  | optional
  | repeated
  | required
deriving DecidableEq

/-- Field kinds (`FieldDescriptor.TYPE_*`).  `group` stands for the legacy
kind that is absent from `SCALAR_MAPPINGS` and from the enum/message
dispatch, hence unhandled by the compiler. -/
inductive FieldType where
  | double
  | float
  | int32
  | int64
  | uint32
  | uint64
  | sint32
  | sint64
  | fixed32
  | fixed64
  | sfixed32
  | sfixed64
  | bool
  | string
  | bytes
  | enum
  | message
  | group
deriving DecidableEq

/-- An enum descriptor: its fully-qualified name and the numbers of its
values (`[value.number for value in enum.DESCRIPTOR.values]`). -/
structure EnumDescriptor where
  full_name : String
  values : List Int
deriving DecidableEq

/-- The message options consulted by the field compiler
(`field.message_type.GetOptions()`). -/
structure MessageOptions where
  deprecated : Bool
  map_entry : Bool
deriving DecidableEq

mutual
/-- A message descriptor: fully-qualified name, declared fields (in
declaration order, as `fields_by_name.items()` yields them), directly
nested message types, directly nested enum types, and options. -/
inductive MessageDescriptor where
  | mk (full_name : String) (fields : List FieldDescriptor)
       (nested_types : List MessageDescriptor)
       (enum_types : List EnumDescriptor)
       (options : MessageOptions)

/-- A field descriptor: short name (the key in `fields_by_name`),
fully-qualified name (the key used by the override gate), kind, label,
and the referenced enum / message descriptor when the kind calls for
one (`field.enum_type` / `field.message_type`, which are `None` for
other kinds). -/
inductive FieldDescriptor where
  | mk (name full_name : String) (type : FieldType) (label : FieldLabel)
       (enum_type : Option EnumDescriptor)
       (message_type : Option MessageDescriptor)
end

def MessageDescriptor.full_name : MessageDescriptor → String
  | .mk n _ _ _ _ => n

def MessageDescriptor.fields : MessageDescriptor → List FieldDescriptor
  | .mk _ fs _ _ _ => fs

def MessageDescriptor.nested_types : MessageDescriptor → List MessageDescriptor
  | .mk _ _ ns _ _ => ns

def MessageDescriptor.enum_types : MessageDescriptor → List EnumDescriptor
  | .mk _ _ _ es _ => es

def MessageDescriptor.options : MessageDescriptor → MessageOptions
  | .mk _ _ _ _ o => o

def FieldDescriptor.name : FieldDescriptor → String
  | .mk n _ _ _ _ _ => n

def FieldDescriptor.full_name : FieldDescriptor → String
  | .mk _ fn _ _ _ _ => fn

def FieldDescriptor.type : FieldDescriptor → FieldType
  | .mk _ _ t _ _ _ => t

def FieldDescriptor.label : FieldDescriptor → FieldLabel
  | .mk _ _ _ l _ _ => l

def FieldDescriptor.enum_type : FieldDescriptor → Option EnumDescriptor
  | .mk _ _ _ _ e _ => e

def FieldDescriptor.message_type : FieldDescriptor → Option MessageDescriptor
  | .mk _ _ _ _ _ m => m

/-- Abstract syntax of the hypothesis strategies the compiler builds.
Each constructor corresponds to one strategy combinator used by the
source: `st.floats` (with or without bounds), `st.integers(min, max)`,
`st.booleans()`, `st.text()`, `st.binary()`, `st.sampled_from`,
`st.none()`, `st.one_of`, `st.lists`, `st.dictionaries`,
`.filter(non_null)`, and the deferred message strategy built by
`message_to_strategy` (whose body runs only when the strategy is first
sampled, against the environment and overrides in effect then). -/
inductive Strategy where
  | floats (bounds : Option (ℚ × ℚ))
  | integers (lo hi : Int)
  | booleans
  | text
  | binary
  | sampledFrom (values : List Int)
  | none_
  | oneOf (alts : List Strategy)
  | lists (elem : Strategy)
  | dictionaries (keyStrat valStrat : Strategy)
  | filterNonNull (s : Strategy)
  | deferredMessage (m : MessageDescriptor)

/-- Values a strategy can produce.  `Value.none` is the absence sentinel
(Python `None`); `nan` and `inf` model the special floats an unbounded
`st.floats()` may yield. -/
inductive Value where
  | int (n : Int)
  | rat (q : ℚ)
  | bool (b : Bool)
  | str (s : String)
  | bytes (bs : List Nat)
  | none
  | nan
  | inf (negative : Bool)
  | list (vs : List Value)
  | dict (entries : List (Value × Value))
  | message (full_name : String) (fields : List (String × Value))

/-- The `non_null` predicate from the source, as the complementary test:
`x is None`. -/
def Value.isNone : Value → Bool
  | .none => true
  | _ => false

/-- Python exceptions relevant to the compiler: `LookupError` (raised by
`find_strategy_in_env`, caught by the loader), the plain `Exception`
raised when the nesting depth bound is exceeded, the plain `Exception`
for an unhandled field kind, and the errors Python itself would raise on
malformed descriptors (`ValueError` from unpacking `k, v`, and
`AttributeError` from touching a `None` type reference). -/
inductive Exc where
  | lookupError
  | nestingDepth
  | unhandledField (full_name : String)
  | valueError
  | attributeError
deriving DecidableEq

/-- Overrides map values: either a literal strategy, or a callable from
strategy to strategy. -/
inductive Override where
  | literal (s : Strategy)
  | transform (t : Strategy → Strategy)

/-- The `overrides` keyword mapping: fully-qualified name to override.
The empty list plays the role of both "no overrides supplied" and an
empty dict (both falsy in `if not overrides`). -/
abbrev Overrides := List (String × Override)

def lookupOv : Overrides → String → Option Override
  | [], _ => Option.none
  | (k, o) :: rest, n => if k = n then some o else lookupOv rest n

/-- The environment: insertion-ordered pairs of fully-qualified names and
strategies (the Python dict, observed only through `full_name` scans). -/
abbrev Env := List (String × Strategy)

def lookupName : Env → String → Option Strategy
  | [], _ => Option.none
  | (k, s) :: rest, n => if k = n then some s else lookupName rest n

/-- The scalar table `SCALAR_MAPPINGS` with the range constants
`RANGE32`, `RANGE64`, `URANGE32`, `URANGE64`, `SINGLEPRECISION` from the
source. -/
def RANGE32_MIN : Int := -(2 ^ 31) + 1
def RANGE32_MAX : Int := 2 ^ 31 - 1
def RANGE64_MIN : Int := -(2 ^ 63) + 1
def RANGE64_MAX : Int := 2 ^ 63 - 1
def URANGE32_MIN : Int := 0
def URANGE32_MAX : Int := 2 ^ 32 - 1
def URANGE64_MIN : Int := 0
def URANGE64_MAX : Int := 2 ^ 64 - 1
def SINGLEPRECISION_MAX : ℚ := (2 - 2 ^ (-23 : ℤ)) * 2 ^ (127 : ℕ)
def SINGLEPRECISION_MIN : ℚ := -(2 - 2 ^ (-23 : ℤ)) * 2 ^ (127 : ℕ)

def SCALAR_MAPPINGS : FieldType → Option Strategy
  | .double => some (.floats Option.none)
  | .float => some (.floats (some (SINGLEPRECISION_MIN, SINGLEPRECISION_MAX)))
  | .int32 => some (.integers RANGE32_MIN RANGE32_MAX)
  | .int64 => some (.integers RANGE64_MIN RANGE64_MAX)
  | .uint32 => some (.integers URANGE32_MIN URANGE32_MAX)
  | .uint64 => some (.integers URANGE64_MIN URANGE64_MAX)
  | .sint32 => some (.integers RANGE32_MIN RANGE32_MAX)
  | .sint64 => some (.integers RANGE64_MIN RANGE64_MAX)
  | .fixed32 => some (.integers URANGE32_MIN URANGE32_MAX)
  | .fixed64 => some (.integers URANGE64_MIN URANGE64_MAX)
  | .sfixed32 => some (.integers RANGE32_MIN RANGE32_MAX)
  | .sfixed64 => some (.integers RANGE64_MIN RANGE64_MAX)
  | .bool => some .booleans
  | .string => some .text
  | .bytes => some .binary
  | .enum => Option.none
  | .message => Option.none
  | .group => Option.none

/-- The multiplicity table `LABEL_MAPPINGS`:
`LABEL_OPTIONAL ↦ st.one_of`, `LABEL_REPEATED ↦ st.lists`,
`LABEL_REQUIRED ↦ lambda x: x`.  Note that the source applies the
optional entry to the single base strategy, giving `st.one_of(strategy)`
— a union with exactly one alternative. -/
def LABEL_MAPPINGS : FieldLabel → Strategy → Strategy
  | .optional, s => .oneOf [s]
  | .repeated, s => .lists s
  | .required, s => s

/-- `apply_modifier(strategy, field)`. -/
def apply_modifier (strategy : Strategy) (field : FieldDescriptor) : Strategy :=
  LABEL_MAPPINGS field.label strategy

def MAX_LOAD_DEPTH : Nat := 5

/-- The override gate (`overridable` decorator): given the entity's
fully-qualified name, the overrides mapping and the underlying compile
computation (a thunk, since Python only evaluates `f(*args)` on the
branches that need it), dispatch per the decorator's three cases. -/
def overridable (full_name : String) (ov : Overrides)
    (f : Unit → Except Exc Strategy) : Except Exc Strategy :=
  if ov.isEmpty then f ()
  else
    match lookupOv ov full_name with
    | Option.none => f ()
    | some (.literal s) => .ok s
    | some (.transform t) => (f ()).map t

/-- `enum_to_strategy`, including its `@overridable` decoration:
`st.sampled_from([value.number for value in enum.DESCRIPTOR.values])`. -/
def enum_to_strategy (e : EnumDescriptor) (ov : Overrides) : Except Exc Strategy :=
  overridable e.full_name ov (fun _ => .ok (.sampledFrom e.values))

/-- `find_strategy_in_env(descriptor, env)`: scan the environment for an
entry whose key equals the descriptor's `full_name`; raise `LookupError`
when none matches. -/
def find_strategy_in_env (full_name : String) (env : Env) : Except Exc Strategy :=
  match lookupName env full_name with
  | some s => .ok s
  | Option.none => .error .lookupError

mutual
/-- `field_to_strategy`, including its `@overridable` decoration (the
decorator's logic is inlined here; `overridable_spec_field` below proves
it equal to `overridable` applied to the undecorated function). -/
def field_to_strategy (f : FieldDescriptor) (env : Env) (ov : Overrides) :
    Except Exc Strategy :=
  if ov.isEmpty then field_to_strategy_raw f env
  else
    match lookupOv ov f.full_name with
    | Option.none => field_to_strategy_raw f env
    | some (.literal s) => .ok s
    | some (.transform t) => (field_to_strategy_raw f env).map t
termination_by (sizeOf f, 1)
decreasing_by all_goals simp_wf; omega

/-- The undecorated body of `field_to_strategy`.  The recursive calls in
the map-entry branch invoke the decorated function with no `overrides`
keyword, exactly as `field_to_strategy(k, env)` does in the source. -/
def field_to_strategy_raw (f : FieldDescriptor) (env : Env) : Except Exc Strategy :=
  match SCALAR_MAPPINGS f.type with
  | some s => .ok (apply_modifier s f)
  | Option.none =>
    if f.type = .enum then
      match f.enum_type with
      | some e => (find_strategy_in_env e.full_name env).map (fun s => apply_modifier s f)
      | Option.none => .error .attributeError
    else if h : f.type = .message then
      match h2 : f.message_type with
      | some mt =>
        if mt.options.deprecated then .ok .none_
        else if mt.options.map_entry then
          match h3 : mt.fields with
          | [k, v] =>
            match field_to_strategy k env [] with
            | .error e => .error e
            | .ok ks =>
              match field_to_strategy v env [] with
              | .error e => .error e
              | .ok vs => .ok (.dictionaries (.filterNonNull ks) (.filterNonNull vs))
          | _ => .error .valueError
        else (find_strategy_in_env mt.full_name env).map (fun s => apply_modifier s f)
      | Option.none => .error .attributeError
    else .error (.unhandledField f.full_name)
termination_by (sizeOf f, 0)
decreasing_by
  all_goals simp_wf
  all_goals
    cases f with
    | mk nm fn t l et mto =>
      simp [FieldDescriptor.message_type] at h2
      subst h2
      cases mt with
      | mk mnm mflds mnts mets mo =>
        simp [MessageDescriptor.fields] at h3
        subst h3
        simp_all
        omega
end

/-- The "buildable" callable produced by `buildable(message_obj)`: build
the message instance from the sampled keyword arguments, dropping every
pair whose value is `None` (`if v is not None`). -/
def builder (full_name : String) (kwargs : List (String × Value)) : Value :=
  .message full_name (kwargs.filter (fun p => !p.2.isNone))

/-- `message_to_strategy(message_obj, env, overrides)`: the entire body
is wrapped in `st.deferred(lambda: st.builds(...))`, so compiling a
message builds no field strategy at all; the descriptor is captured and
the per-field compilation happens when the strategy is first sampled,
against the (shared, by then final) environment and the same overrides.
-/
def message_to_strategy (m : MessageDescriptor) : Strategy :=
  .deferredMessage m

/-- The computation the deferred lambda performs when forced: compile a
strategy for every declared field, keyed by field name
(`{field_name: field_to_strategy(field, env, overrides=overrides) ...}`).
-/
def forceFields : List FieldDescriptor → Env → Overrides →
    Except Exc (List (String × Strategy))
  | [], _, _ => .ok []
  | f :: fs, env, ov =>
    match field_to_strategy f env ov with
    | .error e => .error e
    | .ok s =>
      match forceFields fs env ov with
      | .error e => .error e
      | .ok rest => .ok ((f.name, s) :: rest)

/-- Forcing the deferred strategy of a message: the first sampling runs
the deferred body, which compiles all field strategies. -/
def force (m : MessageDescriptor) (env : Env) (ov : Overrides) :
    Except Exc (List (String × Strategy)) :=
  forceFields m.fields env ov

/-- The uniform view the loader takes of a parent object: a module
exposes `message_types_by_name` / `enum_types_by_name`, a message class
exposes `DESCRIPTOR.nested_types` / `DESCRIPTOR.enum_types`; either way
the loader sees a list of directly nested enum types and message types.
-/
structure Parent where
  enum_types : List EnumDescriptor
  nested_types : List MessageDescriptor

def MessageDescriptor.toParent (m : MessageDescriptor) : Parent :=
  ⟨m.enum_types, m.nested_types⟩

/-- A module object handed to `modules_to_strategies` (named `ProtoModule`
here because `Module` is taken by Mathlib). -/
structure ProtoModule where
  message_types : List MessageDescriptor
  enum_types : List EnumDescriptor

def ProtoModule.toParent (M : ProtoModule) : Parent :=
  ⟨M.enum_types, M.message_types⟩

/-- The loader's enum loop:
`env[enum_obj] = enum_to_strategy(enum_obj, overrides=overrides)`. -/
def insertEnums (env : Env) : List EnumDescriptor → Overrides → Except Exc Env
  | [], _ => .ok env
  | e :: rest, ov =>
    match enum_to_strategy e ov with
    | .error exc => .error exc
    | .ok s => insertEnums (env ++ [(e.full_name, s)]) rest ov

/-- One full pass of the loader's message loop, over the (indexed)
sibling list.  `loaded` holds the indices of already-loaded siblings
(standing for the identity-keyed `loaded` set of descriptor objects).
A sibling raising `LookupError` is skipped (`except LookupError:
continue`); any other exception propagates.  On success the recursive
load's environment is extended with the sibling's own deferred strategy
(`env[message_obj] = message_to_strategy(...)`). -/
def onePass (loadFn : MessageDescriptor → Env → Except Exc (Env × Bool)) :
    List (Nat × MessageDescriptor) → List Nat → Env → Except Exc (Env × List Nat)
  | [], loaded, env => .ok (env, loaded)
  | (i, m) :: rest, loaded, env =>
    if loaded.contains i then onePass loadFn rest loaded env
    else
      match loadFn m env with
      | .error Exc.lookupError => onePass loadFn rest loaded env
      | .error e => .error e
      | .ok (env', _) =>
        onePass loadFn rest (loaded ++ [i])
          (env' ++ [(m.full_name, message_to_strategy m)])

/-- The loader's retry loop: `for __ in range(total_messages)` full
passes, with the `all(message in loaded ...)` check and `break` at the
end of each pass; `is_loaded` stays `False` when the loop body never
runs or the passes are exhausted. -/
def passes (loadFn : MessageDescriptor → Env → Except Exc (Env × Bool))
    (sibs : List (Nat × MessageDescriptor)) :
    Nat → List Nat → Env → Except Exc (Env × Bool)
  | 0, _, env => .ok (env, false)
  | Nat.succ k, loaded, env =>
    match onePass loadFn sibs loaded env with
    | .error e => .error e
    | .ok (env', loaded') =>
      if sibs.all (fun p => loaded'.contains p.1) then .ok (env', true)
      else passes loadFn sibs k loaded' env'

/-- `load_module_into_env(parent_obj, env, overrides, depth)`: check the
depth bound first (raising the fatal nesting exception), insert the
enum strategies, then run up to `total_messages` passes over the
directly nested message types, recursively loading each at `depth + 1`.
-/
def loadParent (p : Parent) (env : Env) (ov : Overrides) (depth : Nat) :
    Except Exc (Env × Bool) :=
  if h : MAX_LOAD_DEPTH < depth then .error .nestingDepth
  else
    match insertEnums env p.enum_types ov with
    | .error e => .error e
    | .ok env1 =>
      passes (fun m e => loadParent m.toParent e ov (depth + 1))
        p.nested_types.enum p.nested_types.length [] env1
termination_by MAX_LOAD_DEPTH + 1 - depth
decreasing_by simp_wf; unfold MAX_LOAD_DEPTH at *; omega

/-- The top-level per-module entry: `load_module_into_env(module, env,
overrides)` with the default `depth=1`. -/
def load_module_into_env (M : ProtoModule) (env : Env) (ov : Overrides) :
    Except Exc (Env × Bool) :=
  loadParent M.toParent env ov 1

/-- One pass of the orchestrator over the (indexed) module list:
skip a module whose recorded flag is truthy, otherwise (re)load it and
record the returned boolean. -/
def modulePass (ov : Overrides) :
    List (Nat × ProtoModule) → List Nat → Env → Except Exc (Env × List Nat)
  | [], flags, env => .ok (env, flags)
  | (i, M) :: rest, flags, env =>
    if flags.contains i then modulePass ov rest flags env
    else
      match load_module_into_env M env ov with
      | .error e => .error e
      | .ok (env', b) =>
        modulePass ov rest (if b then flags ++ [i] else flags) env'

/-- The orchestrator's outer loop: `for __ in range(total_modules)`. -/
def mtsGo (ov : Overrides) (mods : List (Nat × ProtoModule)) :
    Nat → List Nat → Env → Except Exc Env
  | 0, _, env => .ok env
  | Nat.succ k, flags, env =>
    match modulePass ov mods flags env with
    | .error e => .error e
    | .ok (env', flags') => mtsGo ov mods k flags' env'

/-- `modules_to_strategies(*modules, **overrides)`. -/
def modules_to_strategies (mods : List ProtoModule) (ov : Overrides) : Except Exc Env :=
  mtsGo ov mods.enum mods.length [] []

mutual
/-- `fits m d` holds when loading message `m` at depth `d` stays within
the depth bound: the call itself passes the `depth > MAX_LOAD_DEPTH`
check and every nested type fits at `d + 1`. -/
def fits (m : MessageDescriptor) (d : Nat) : Bool :=
  decide (d ≤ MAX_LOAD_DEPTH) && fitsList m.nested_types (d + 1)
termination_by (sizeOf m, 1)
decreasing_by simp_wf; cases m; simp [MessageDescriptor.nested_types]; omega

/-- `fits` over a list of sibling message types. -/
def fitsList (l : List MessageDescriptor) (d : Nat) : Bool :=
  match l with
  | [] => true
  | m :: rest => fits m d && fitsList rest d
termination_by (sizeOf l, 0)
decreasing_by all_goals simp_wf; omega
end

/-- The strategy the override gate leaves in place for a total compile
function: the pure residue of `overridable` when `f` cannot raise. -/
def gateStrat (full_name : String) (ov : Overrides) (base : Strategy) : Strategy :=
  if ov.isEmpty then base
  else
    match lookupOv ov full_name with
    | Option.none => base
    | some (.literal s) => s
    | some (.transform t) => t base

/-- The environment entries contributed by a list of enum descriptors. -/
def enumEntries (es : List EnumDescriptor) (ov : Overrides) : Env :=
  es.map (fun e => (e.full_name, gateStrat e.full_name ov (.sampledFrom e.values)))

mutual
/-- Closed form of the environment entries a successful load of message
`m` appends (its nested enums and messages; the entry for `m` itself is
appended by `m`'s own parent). -/
def emit (m : MessageDescriptor) (ov : Overrides) : Env :=
  enumEntries m.enum_types ov ++ emitList m.nested_types ov
termination_by (sizeOf m, 1)
decreasing_by simp_wf; cases m; simp [MessageDescriptor.nested_types]; omega

/-- Entries appended by one full (first) pass over sibling list `l`. -/
def emitList (l : List MessageDescriptor) (ov : Overrides) : Env :=
  match l with
  | [] => []
  | m :: rest =>
    emit m ov ++ [(m.full_name, message_to_strategy m)] ++ emitList rest ov
termination_by (sizeOf l, 0)
decreasing_by all_goals simp_wf; omega
end

/-- Entries appended by a successful load of a parent. -/
def parentEmit (p : Parent) (ov : Overrides) : Env :=
  enumEntries p.enum_types ov ++ emitList p.nested_types ov

/-- Entries appended by a successful load of a module. -/
def moduleEmit (M : ProtoModule) (ov : Overrides) : Env :=
  parentEmit M.toParent ov

mutual
/-- All fully-qualified type names declared by message `m` (its own,
its nested enums', and recursively its nested messages'). -/
def msgTypeNames (m : MessageDescriptor) : List String :=
  m.full_name :: (m.enum_types.map EnumDescriptor.full_name ++ namesList m.nested_types)
termination_by (sizeOf m, 1)
decreasing_by simp_wf; cases m; simp [MessageDescriptor.nested_types]; omega

/-- Type names declared by a list of message types. -/
def namesList (l : List MessageDescriptor) : List String :=
  match l with
  | [] => []
  | m :: rest => msgTypeNames m ++ namesList rest
termination_by (sizeOf l, 0)
decreasing_by all_goals simp_wf; omega
end

/-- All fully-qualified type names declared by a module. -/
def moduleTypeNames (M : ProtoModule) : List String :=
  M.enum_types.map EnumDescriptor.full_name ++ namesList M.message_types

mutual
/-- Denotational semantics of strategies: `CanProduce env ov s v` holds
when sampling strategy `s` can yield value `v`.  The parameters are the
final environment and the top-level overrides, which every deferred body
captures by reference (the Python lambda closes over the shared `env`
dict and the `overrides` argument, both identical across the whole
compilation). -/
inductive CanProduce (env : Env) (ov : Overrides) : Strategy → Value → Prop where
  | floats_free (q : ℚ) : CanProduce env ov (.floats Option.none) (.rat q)
  | floats_nan : CanProduce env ov (.floats Option.none) .nan
  | floats_inf (b : Bool) : CanProduce env ov (.floats Option.none) (.inf b)
  | floats_bounded (lo hi q : ℚ) : lo ≤ q → q ≤ hi →
      CanProduce env ov (.floats (some (lo, hi))) (.rat q)
  | integers (lo hi n : Int) : lo ≤ n → n ≤ hi →
      CanProduce env ov (.integers lo hi) (.int n)
  | booleans (b : Bool) : CanProduce env ov .booleans (.bool b)
  | text (s : String) : CanProduce env ov .text (.str s)
  | binary (bs : List Nat) : CanProduce env ov .binary (.bytes bs)
  | sampledFrom (vals : List Int) (n : Int) : n ∈ vals →
      CanProduce env ov (.sampledFrom vals) (.int n)
  | none_ : CanProduce env ov .none_ .none
  | oneOf (alts : List Strategy) (s : Strategy) (v : Value) :
      s ∈ alts → CanProduce env ov s v → CanProduce env ov (.oneOf alts) v
  | lists (s : Strategy) (vs : List Value) :
      (∀ v, v ∈ vs → CanProduce env ov s v) →
      CanProduce env ov (.lists s) (.list vs)
  | dictionaries (ks vs : Strategy) (entries : List (Value × Value)) :
      (∀ p, p ∈ entries → CanProduce env ov ks p.1) →
      (∀ p, p ∈ entries → CanProduce env ov vs p.2) →
      CanProduce env ov (.dictionaries ks vs) (.dict entries)
  | filtered (s : Strategy) (v : Value) :
      CanProduce env ov s v → v.isNone = false →
      CanProduce env ov (.filterNonNull s) v
  | message (m : MessageDescriptor) (vals : List (String × Value)) :
      SampledFields env ov m.fields vals →
      CanProduce env ov (.deferredMessage m) (builder m.full_name vals)

/-- Sampling one value per declared field: the deferred body's
`st.builds` compiles each field with `field_to_strategy(field, env,
overrides=overrides)` and draws one value from it. -/
inductive SampledFields (env : Env) (ov : Overrides) :
    List FieldDescriptor → List (String × Value) → Prop where
  | nil : SampledFields env ov [] []
  | cons (f : FieldDescriptor) (fs : List FieldDescriptor) (v : Value)
      (vs : List (String × Value)) (s : Strategy) :
      field_to_strategy f env ov = .ok s →
      CanProduce env ov s v →
      SampledFields env ov fs vs →
      SampledFields env ov (f :: fs) ((f.name, v) :: vs)
end

theorem lookupName_append (xs ys : Env) (n : String) :
    lookupName (xs ++ ys) n =
      match lookupName xs n with
      | some s => some s
      | Option.none => lookupName ys n := by
  induction xs with
  | nil => simp [lookupName]
  | cons p rest ih =>
    obtain ⟨k, s⟩ := p
    by_cases h : k = n
    · simp [lookupName, h]
    · simp [lookupName, h, ih]

theorem lookupName_eq_none_of_not_mem (xs : Env) (n : String)
    (h : n ∉ xs.map Prod.fst) : lookupName xs n = Option.none := by
  induction xs with
  | nil => simp [lookupName]
  | cons p rest ih =>
    obtain ⟨k, s⟩ := p
    simp only [List.map_cons, List.mem_cons] at h
    push_neg at h
    simp [lookupName, Ne.symm h.1, ih h.2]

theorem mem_of_lookupName_some (xs : Env) (n : String) (s : Strategy)
    (h : lookupName xs n = some s) : n ∈ xs.map Prod.fst := by
  induction xs with
  | nil => simp [lookupName] at h
  | cons p rest ih =>
    obtain ⟨k, s'⟩ := p
    by_cases hk : k = n
    · simp [hk]
    · simp only [lookupName, if_neg hk] at h
      simp [ih h]

theorem fitsList_iff (l : List MessageDescriptor) (d : Nat) :
    fitsList l d = true ↔ ∀ m ∈ l, fits m d = true := by
  induction l with
  | nil => simp [fitsList]
  | cons m rest ih => simp [fitsList, ih]

theorem fits_iff (m : MessageDescriptor) (d : Nat) :
    fits m d = true ↔ d ≤ MAX_LOAD_DEPTH ∧ fitsList m.nested_types (d + 1) = true := by
  rw [fits]
  simp

theorem enum_to_strategy_ok (e : EnumDescriptor) (ov : Overrides) :
    enum_to_strategy e ov = .ok (gateStrat e.full_name ov (.sampledFrom e.values)) := by
  unfold enum_to_strategy overridable gateStrat
  by_cases h : ov.isEmpty
  · simp [h]
  · simp only [h, if_false]
    match lookupOv ov e.full_name with
    | Option.none => rfl
    | some (.literal s) => rfl
    | some (.transform t) => rfl

theorem insertEnums_eq (es : List EnumDescriptor) (ov : Overrides) :
    ∀ env, insertEnums env es ov = .ok (env ++ enumEntries es ov) := by
  induction es with
  | nil => intro env; simp [insertEnums, enumEntries]
  | cons e rest ih =>
    intro env
    rw [insertEnums, enum_to_strategy_ok]
    simp only [ih, enumEntries, List.map_cons]
    simp

/-- The environment entries one full pass appends for a sibling list,
given the entries each recursive load appends. -/
def blocks (emitOf : MessageDescriptor → Env) :
    List (Nat × MessageDescriptor) → Env
  | [] => []
  | (_, m) :: rest =>
    emitOf m ++ [(m.full_name, message_to_strategy m)] ++ blocks emitOf rest

theorem blocks_enumFrom (ov : Overrides) (l : List MessageDescriptor) :
    ∀ n, blocks (fun m => emit m ov) (List.enumFrom n l) = emitList l ov := by
  induction l with
  | nil => intro n; simp [blocks, emitList, List.enumFrom]
  | cons m rest ih =>
    intro n
    rw [emitList]
    simp [List.enumFrom, blocks, ih]

theorem enumFrom_map_fst (l : List MessageDescriptor) :
    ∀ n, (List.enumFrom n l).map Prod.fst = List.range' n l.length := by
  induction l with
  | nil => intro n; simp [List.enumFrom]
  | cons m rest ih => intro n; simp [List.enumFrom, List.range'_succ, ih]

theorem onePass_closed (loadFn : MessageDescriptor → Env → Except Exc (Env × Bool))
    (emitOf : MessageDescriptor → Env) (flagOf : MessageDescriptor → Bool) :
    ∀ (sibs : List (Nat × MessageDescriptor)) (loaded : List Nat) (env : Env),
    (∀ q ∈ sibs, ∀ e, loadFn q.2 e = .ok (e ++ emitOf q.2, flagOf q.2)) →
    ((sibs.map Prod.fst).Nodup) →
    (∀ q ∈ sibs, q.1 ∉ loaded) →
    onePass loadFn sibs loaded env =
      .ok (env ++ blocks emitOf sibs, loaded ++ sibs.map Prod.fst) := by
  intro sibs
  induction sibs with
  | nil => intro loaded env _ _ _; simp [onePass, blocks]
  | cons q rest ih =>
    intro loaded env hload hnd hnotin
    obtain ⟨i, m⟩ := q
    have hi : i ∉ loaded := hnotin (i, m) (by simp)
    rw [onePass]
    simp only [List.contains, List.elem_eq_mem, decide_eq_true_eq]
    rw [if_neg hi]
    rw [hload (i, m) (by simp) env]
    dsimp only
    simp only [List.map_cons] at hnd
    have hnd' := List.nodup_cons.mp hnd
    rw [ih (loaded ++ [i]) (env ++ emitOf m ++ [(m.full_name, message_to_strategy m)])
      (fun q hq e => hload q (by simp [hq]) e) hnd'.2 ?_]
    · simp [blocks]
    · intro q hq
      simp only [List.mem_append, List.mem_singleton]
      push_neg
      constructor
      · exact hnotin q (by simp [hq])
      · intro he
        exact hnd'.1 (he ▸ List.mem_map_of_mem Prod.fst hq)

theorem onePass_err (loadFn : MessageDescriptor → Env → Except Exc (Env × Bool))
    (emitOf : MessageDescriptor → Env) (flagOf : MessageDescriptor → Bool) :
    ∀ (sibs : List (Nat × MessageDescriptor)) (loaded : List Nat) (env : Env),
    (∀ q ∈ sibs, (∀ e, loadFn q.2 e = .ok (e ++ emitOf q.2, flagOf q.2)) ∨
       (∀ e, loadFn q.2 e = .error .nestingDepth)) →
    ((sibs.map Prod.fst).Nodup) →
    (∀ q ∈ sibs, q.1 ∉ loaded) →
    (∃ q ∈ sibs, ∀ e, loadFn q.2 e = .error .nestingDepth) →
    onePass loadFn sibs loaded env = .error .nestingDepth := by
  intro sibs
  induction sibs with
  | nil => intro loaded env _ _ _ hbad; simp at hbad
  | cons q rest ih =>
    intro loaded env hall hnd hnotin hbad
    obtain ⟨i, m⟩ := q
    have hi : i ∉ loaded := hnotin (i, m) (by simp)
    rw [onePass]
    simp only [List.contains, List.elem_eq_mem, decide_eq_true_eq]
    rw [if_neg hi]
    simp only [List.map_cons] at hnd
    have hnd' := List.nodup_cons.mp hnd
    rcases hall (i, m) (by simp) with hok | herr
    · rw [hok env]
      dsimp only
      apply ih (loaded ++ [i]) _ (fun q hq => hall q (by simp [hq])) hnd'.2
      · intro q hq
        simp only [List.mem_append, List.mem_singleton]
        push_neg
        refine ⟨hnotin q (by simp [hq]), ?_⟩
        intro he
        exact hnd'.1 (he ▸ List.mem_map_of_mem Prod.fst hq)
      · obtain ⟨q, hq, hqerr⟩ := hbad
        rcases List.mem_cons.mp hq with rfl | hq'
        · exact absurd ((hok env).symm.trans (hqerr env)) (by simp)
        · exact ⟨q, hq', hqerr⟩
    · rw [herr env]

theorem passes_first (loadFn : MessageDescriptor → Env → Except Exc (Env × Bool))
    (emitOf : MessageDescriptor → Env) (flagOf : MessageDescriptor → Bool)
    (sibs : List (Nat × MessageDescriptor)) (k : Nat) (env : Env)
    (hload : ∀ q ∈ sibs, ∀ e, loadFn q.2 e = .ok (e ++ emitOf q.2, flagOf q.2))
    (hnd : (sibs.map Prod.fst).Nodup) :
    passes loadFn sibs (Nat.succ k) [] env =
      .ok (env ++ blocks emitOf sibs, true) := by
  rw [passes]
  rw [onePass_closed loadFn emitOf flagOf sibs [] env hload hnd (by simp)]
  have hall : sibs.all (fun p => (([] : List Nat) ++ sibs.map Prod.fst).contains p.1) = true := by
    simp only [List.all_eq_true, List.contains, List.elem_eq_mem, decide_eq_true_eq, List.nil_append]
    intro p hp
    exact List.mem_map_of_mem Prod.fst hp
  simp only [hall, if_true]

theorem passes_err (loadFn : MessageDescriptor → Env → Except Exc (Env × Bool))
    (sibs : List (Nat × MessageDescriptor)) (k : Nat) (env : Env)
    (herr : onePass loadFn sibs [] env = .error .nestingDepth) :
    passes loadFn sibs (Nat.succ k) [] env = .error .nestingDepth := by
  rw [passes, herr]

theorem mem_of_mem_enumFrom {α : Type} (l : List α) :
    ∀ (n : Nat) (q : Nat × α), q ∈ List.enumFrom n l → q.2 ∈ l := by
  induction l with
  | nil => intro n q h; simp [List.enumFrom] at h
  | cons a rest ih =>
    intro n q h
    simp only [List.enumFrom, List.mem_cons] at h
    rcases h with rfl | h
    · simp
    · exact List.mem_cons_of_mem a (ih (n + 1) q h)

theorem exists_mem_enumFrom_of_mem {α : Type} (l : List α) :
    ∀ (n : Nat) (a : α), a ∈ l → ∃ i, (i, a) ∈ List.enumFrom n l := by
  induction l with
  | nil => intro n a h; simp at h
  | cons b rest ih =>
    intro n a h
    rcases List.mem_cons.mp h with rfl | h
    · exact ⟨n, by simp [List.enumFrom]⟩
    · obtain ⟨i, hi⟩ := ih (n + 1) a h
      exact ⟨i, by simp [List.enumFrom, List.mem_cons, hi]⟩

theorem parentEmit_toParent (m : MessageDescriptor) (ov : Overrides) :
    parentEmit m.toParent ov = emit m ov := by
  rw [emit, parentEmit, MessageDescriptor.toParent]

theorem fitsList_eq_false_iff (l : List MessageDescriptor) (d : Nat) :
    fitsList l d = false ↔ ∃ m ∈ l, fits m d = false := by
  constructor
  · intro h
    by_contra hc
    push_neg at hc
    have hall : ∀ m ∈ l, fits m d = true := by
      intro m hm
      cases hb : fits m d
      · exact absurd hb (hc m hm)
      · rfl
    rw [(fitsList_iff l d).mpr hall] at h
    simp at h
  · rintro ⟨m, hm, hf⟩
    cases hl : fitsList l d
    · rfl
    · rw [(fitsList_iff l d).mp hl m hm] at hf
      exact absurd hf (by simp)

theorem loadParent_depth (p : Parent) (env : Env) (ov : Overrides) (d : Nat)
    (h : MAX_LOAD_DEPTH < d) : loadParent p env ov d = .error .nestingDepth := by
  rw [loadParent, dif_pos h]

theorem loadParent_fits_aux (k : Nat) :
    ∀ (d : Nat), MAX_LOAD_DEPTH + 1 - d ≤ k →
    ∀ (p : Parent) (env : Env) (ov : Overrides), d ≤ MAX_LOAD_DEPTH →
    fitsList p.nested_types (d + 1) = true →
    loadParent p env ov d = .ok (env ++ parentEmit p ov, !p.nested_types.isEmpty) := by
  induction k with
  | zero => intro d hd p env ov hle _; omega
  | succ k ih =>
    intro d hd p env ov hle hfits
    rw [loadParent, dif_neg (by omega : ¬ MAX_LOAD_DEPTH < d), insertEnums_eq]
    dsimp only
    cases hn : p.nested_types with
    | nil =>
      simp only [hn, List.length_nil, List.enum_nil]
      rw [passes]
      simp [parentEmit, hn, emitList]
    | cons m rest =>
      simp only [hn, List.length_cons]
      have hload : ∀ q ∈ (List.enumFrom 0 (m :: rest)), ∀ e,
          loadParent q.2.toParent e ov (d + 1) =
            .ok (e ++ emit q.2 ov, !q.2.nested_types.isEmpty) := by
        intro q hq e
        have hqm : q.2 ∈ m :: rest := mem_of_mem_enumFrom (m :: rest) 0 q hq
        have hqfits : fits q.2 (d + 1) = true := by
          have := (fitsList_iff p.nested_types (d + 1)).mp hfits
          exact this q.2 (hn ▸ hqm)
        obtain ⟨hd1, hnest⟩ := (fits_iff q.2 (d + 1)).mp hqfits
        rw [ih (d + 1) (by omega) q.2.toParent e ov hd1
          (by rw [MessageDescriptor.toParent]; exact hnest)]
        rw [parentEmit_toParent]
        rfl
      have hnd : ((List.enumFrom 0 (m :: rest)).map Prod.fst).Nodup := by
        rw [enumFrom_map_fst]
        exact List.nodup_range' _ _
      rw [List.enum]
      rw [passes_first (fun mm e => loadParent mm.toParent e ov (d + 1))
        (fun mm => emit mm ov) (fun mm => !mm.nested_types.isEmpty)
        (List.enumFrom 0 (m :: rest)) rest.length _ hload hnd]
      rw [blocks_enumFrom]
      simp [parentEmit, hn]

theorem loadParent_fits (p : Parent) (env : Env) (ov : Overrides) (d : Nat)
    (hle : d ≤ MAX_LOAD_DEPTH) (hfits : fitsList p.nested_types (d + 1) = true) :
    loadParent p env ov d = .ok (env ++ parentEmit p ov, !p.nested_types.isEmpty) :=
  loadParent_fits_aux (MAX_LOAD_DEPTH + 1 - d) d (le_refl _) p env ov hle hfits

theorem loadParent_err_aux (k : Nat) :
    ∀ (d : Nat), MAX_LOAD_DEPTH + 1 - d ≤ k →
    ∀ (p : Parent) (env : Env) (ov : Overrides), d ≤ MAX_LOAD_DEPTH →
    fitsList p.nested_types (d + 1) = false →
    loadParent p env ov d = .error .nestingDepth := by
  induction k with
  | zero => intro d hd p env ov hle _; omega
  | succ k ih =>
    intro d hd p env ov hle hfits
    rw [loadParent, dif_neg (by omega : ¬ MAX_LOAD_DEPTH < d), insertEnums_eq]
    dsimp only
    cases hn : p.nested_types with
    | nil => rw [hn] at hfits; simp [fitsList] at hfits
    | cons m rest =>
      simp only [hn, List.length_cons]
      have hdispatch : ∀ mm : MessageDescriptor, fits mm (d + 1) = false →
          ∀ e, loadParent mm.toParent e ov (d + 1) = .error .nestingDepth := by
        intro mm hmm e
        by_cases hd1 : MAX_LOAD_DEPTH < d + 1
        · exact loadParent_depth mm.toParent e ov (d + 1) hd1
        · push_neg at hd1
          have hnest : fitsList mm.nested_types (d + 2) = false := by
            cases hb : fitsList mm.nested_types (d + 2)
            · rfl
            · rw [fits] at hmm
              rw [Bool.and_eq_false_iff] at hmm
              rcases hmm with h1 | h2
              · rw [decide_eq_false_iff_not] at h1; omega
              · exact absurd hb (by rw [h2]; simp)
          exact ih (d + 1) (by omega) mm.toParent e ov hd1
            (by rw [MessageDescriptor.toParent]; exact hnest)
      have hall : ∀ q ∈ (List.enumFrom 0 (m :: rest)),
          (∀ e, loadParent q.2.toParent e ov (d + 1) =
            .ok (e ++ emit q.2 ov, !q.2.nested_types.isEmpty)) ∨
          (∀ e, loadParent q.2.toParent e ov (d + 1) = .error .nestingDepth) := by
        intro q hq
        cases hqf : fits q.2 (d + 1) with
        | false => exact Or.inr (hdispatch q.2 hqf)
        | true =>
          left
          intro e
          obtain ⟨hd1, hnest⟩ := (fits_iff q.2 (d + 1)).mp hqf
          rw [loadParent_fits q.2.toParent e ov (d + 1) hd1
            (by rw [MessageDescriptor.toParent]; exact hnest)]
          rw [parentEmit_toParent]
          rfl
      have hnd : ((List.enumFrom 0 (m :: rest)).map Prod.fst).Nodup := by
        rw [enumFrom_map_fst]
        exact List.nodup_range' _ _
      have hbad : ∃ q ∈ (List.enumFrom 0 (m :: rest)),
          ∀ e, loadParent q.2.toParent e ov (d + 1) = .error .nestingDepth := by
        rw [hn] at hfits
        obtain ⟨mm, hmm, hmf⟩ := (fitsList_eq_false_iff (m :: rest) (d + 1)).mp hfits
        obtain ⟨i, hi⟩ := exists_mem_enumFrom_of_mem (m :: rest) 0 mm hmm
        exact ⟨(i, mm), hi, hdispatch mm hmf⟩
      rw [List.enum]
      apply passes_err
      exact onePass_err (fun mm e => loadParent mm.toParent e ov (d + 1))
        (fun mm => emit mm ov) (fun mm => !mm.nested_types.isEmpty)
        (List.enumFrom 0 (m :: rest)) [] _ hall hnd (by simp) hbad

theorem loadParent_err (p : Parent) (env : Env) (ov : Overrides) (d : Nat)
    (hle : d ≤ MAX_LOAD_DEPTH) (hfits : fitsList p.nested_types (d + 1) = false) :
    loadParent p env ov d = .error .nestingDepth :=
  loadParent_err_aux (MAX_LOAD_DEPTH + 1 - d) d (le_refl _) p env ov hle hfits

theorem loadParent_cases (p : Parent) (env : Env) (ov : Overrides) (d : Nat) :
    (∃ r, loadParent p env ov d = .ok r) ∨
      loadParent p env ov d = .error .nestingDepth := by
  by_cases hd : MAX_LOAD_DEPTH < d
  · exact Or.inr (loadParent_depth p env ov d hd)
  · push_neg at hd
    cases hf : fitsList p.nested_types (d + 1) with
    | true => exact Or.inl ⟨_, loadParent_fits p env ov d hd hf⟩
    | false => exact Or.inr (loadParent_err p env ov d hd hf)

theorem load_module_closed (M : ProtoModule) (ov : Overrides)
    (h : fitsList M.message_types 2 = true) :
    ∀ env, load_module_into_env M env ov =
      .ok (env ++ moduleEmit M ov, !M.message_types.isEmpty) := by
  intro env
  rw [load_module_into_env, loadParent_fits M.toParent env ov 1
    (by norm_num [MAX_LOAD_DEPTH]) (by rw [ProtoModule.toParent]; exact h)]
  rfl

theorem mts_two_env (A B : ProtoModule) (ov : Overrides)
    (hA : fitsList A.message_types 2 = true) (hB : fitsList B.message_types 2 = true) :
    modules_to_strategies [A, B] ov = .ok (
      moduleEmit A ov ++ moduleEmit B ov ++
      (if A.message_types.isEmpty then moduleEmit A ov else []) ++
      (if B.message_types.isEmpty then moduleEmit B ov else [])) := by
  cases hA1 : A.message_types.isEmpty <;> cases hB1 : B.message_types.isEmpty <;>
    · simp only [modules_to_strategies, List.enum, List.enumFrom, List.length_cons,
        List.length_nil, mtsGo, modulePass, load_module_closed A ov hA,
        load_module_closed B ov hB, hA1, hB1, Bool.not_true, Bool.not_false,
        if_true, if_false, List.contains_cons, List.nil_append]
      simp +decide [List.append_assoc]

theorem lookupName_pair (EA EB : Env) (bA bB : Bool) (n : String) :
    lookupName (EA ++ EB ++ (if bA then EA else []) ++ (if bB then EB else [])) n =
      (match lookupName EA n with
       | some s => some s
       | Option.none => lookupName EB n) := by
  cases bA <;> cases bB <;>
    simp only [if_true, if_false, List.append_nil, lookupName_append] <;>
    rcases hA : lookupName EA n with _ | sA <;>
    rcases hB : lookupName EB n with _ | sB <;>
    simp [lookupName, hA, hB]

theorem keys_enumEntries (es : List EnumDescriptor) (ov : Overrides) :
    (enumEntries es ov).map Prod.fst = es.map EnumDescriptor.full_name := by
  simp [enumEntries, List.map_map]

theorem keys_emitList (ov : Overrides) :
    (l : List MessageDescriptor) → ∀ n ∈ (emitList l ov).map Prod.fst, n ∈ namesList l
  | [] => by simp [emitList, namesList]
  | m :: rest => by
    intro n hn
    rw [emitList] at hn
    rw [namesList]
    simp only [List.map_append, List.mem_append, List.map_cons, List.map_nil,
      List.mem_cons, List.mem_singleton] at hn
    rcases hn with (hemit | hself) | hrest
    · rw [emit] at hemit
      simp only [List.map_append, List.mem_append] at hemit
      rw [msgTypeNames]
      rcases hemit with henum | hnested
      · rw [keys_enumEntries] at henum
        simp [henum]
      · have := keys_emitList ov m.nested_types n hnested
        simp [this]
    · simp only [List.mem_singleton, List.not_mem_nil, or_false] at hself
      rw [msgTypeNames]
      simp [hself]
    · exact List.mem_append_right _ (keys_emitList ov rest n hrest)
termination_by l => sizeOf l
decreasing_by
  all_goals simp_wf
  all_goals first
  | (cases m with
     | mk a b c d e =>
       simp [MessageDescriptor.nested_types]
       omega)
  | (simp; omega)
  | omega

theorem keys_emit (ov : Overrides) (m : MessageDescriptor) :
    ∀ n ∈ (emit m ov).map Prod.fst,
      n ∈ m.enum_types.map EnumDescriptor.full_name ++ namesList m.nested_types := by
  intro n hn
  rw [emit] at hn
  simp only [List.map_append, List.mem_append] at hn
  rcases hn with henum | hnested
  · rw [keys_enumEntries] at henum
    exact List.mem_append_left _ henum
  · exact List.mem_append_right _ (keys_emitList ov m.nested_types n hnested)

theorem full_name_mem_msgTypeNames (m : MessageDescriptor) :
    m.full_name ∈ msgTypeNames m := by
  rw [msgTypeNames]
  exact List.mem_cons_self _ _

theorem full_name_mem_namesList (l : List MessageDescriptor) (m : MessageDescriptor)
    (hm : m ∈ l) : m.full_name ∈ namesList l := by
  induction l with
  | nil => simp at hm
  | cons h rest ih =>
    rw [namesList]
    rcases List.mem_cons.mp hm with rfl | hm'
    · exact List.mem_append_left _ (full_name_mem_msgTypeNames m)
    · exact List.mem_append_right _ (ih hm')

theorem lookup_emitList (ov : Overrides) (l : List MessageDescriptor)
    (m : MessageDescriptor) (hm : m ∈ l) (hnd : (namesList l).Nodup) :
    lookupName (emitList l ov) m.full_name = some (message_to_strategy m) := by
  induction l with
  | nil => simp at hm
  | cons h rest ih =>
    rw [namesList] at hnd
    obtain ⟨hnd1, hnd2, hdisj⟩ := List.nodup_append.mp hnd
    rw [emitList, lookupName_append, lookupName_append]
    rcases List.mem_cons.mp hm with rfl | hm'
    · have hsk : lookupName (emit m ov) m.full_name = Option.none := by
        apply lookupName_eq_none_of_not_mem
        intro hmem
        have htail := keys_emit ov m m.full_name hmem
        have : msgTypeNames m = m.full_name ::
            (m.enum_types.map EnumDescriptor.full_name ++ namesList m.nested_types) := by
          rw [msgTypeNames]
        rw [this] at hnd1
        exact (List.nodup_cons.mp hnd1).1 htail
      rw [hsk]
      simp [lookupName]
    · have hmm : m.full_name ∈ namesList rest := full_name_mem_namesList rest m hm'
      have hnot : m.full_name ∉ msgTypeNames h := fun hcon =>
        hdisj hcon hmm
      have hsk : lookupName (emit h ov) m.full_name = Option.none := by
        apply lookupName_eq_none_of_not_mem
        intro hmem
        have htail := keys_emit ov h m.full_name hmem
        apply hnot
        rw [msgTypeNames]
        exact List.mem_cons_of_mem _ htail
      have hne : h.full_name ≠ m.full_name := by
        intro he
        exact hnot (he ▸ full_name_mem_msgTypeNames h)
      rw [hsk]
      simp only [lookupName, if_neg hne]
      exact ih hm' hnd2

theorem keys_moduleEmit (ov : Overrides) (M : ProtoModule) :
    ∀ n ∈ (moduleEmit M ov).map Prod.fst, n ∈ moduleTypeNames M := by
  intro n hn
  rw [moduleEmit, parentEmit, ProtoModule.toParent] at hn
  rw [moduleTypeNames]
  simp only [List.map_append, List.mem_append] at hn
  rcases hn with henum | hmsg
  · rw [keys_enumEntries] at henum
    exact List.mem_append_left _ henum
  · exact List.mem_append_right _ (keys_emitList ov M.message_types n hmsg)

theorem lookup_moduleEmit_none (ov : Overrides) (M : ProtoModule) (n : String)
    (h : n ∉ moduleTypeNames M) : lookupName (moduleEmit M ov) n = Option.none := by
  apply lookupName_eq_none_of_not_mem
  intro hmem
  exact h (keys_moduleEmit ov M n hmem)

theorem lookup_moduleEmit (ov : Overrides) (M : ProtoModule) (m : MessageDescriptor)
    (hm : m ∈ M.message_types) (hnd : (moduleTypeNames M).Nodup) :
    lookupName (moduleEmit M ov) m.full_name = some (.deferredMessage m) := by
  rw [moduleEmit, parentEmit, ProtoModule.toParent]
  rw [moduleTypeNames] at hnd
  obtain ⟨hnd1, hnd2, hdisj⟩ := List.nodup_append.mp hnd
  rw [lookupName_append]
  have hsk : lookupName (enumEntries M.enum_types ov) m.full_name = Option.none := by
    apply lookupName_eq_none_of_not_mem
    rw [keys_enumEntries]
    intro hmem
    exact hdisj hmem (full_name_mem_namesList M.message_types m hm)
  rw [hsk]
  exact lookup_emitList ov M.message_types m hm hnd2

/-! Concrete descriptors used by counterexamples and witnesses. -/

/-- An optional bool field (any optional scalar field exhibits the same
behavior). -/
def optBoolField : FieldDescriptor :=
  .mk "b" "M.b" .bool .optional Option.none Option.none

/-- The key sub-field of a synthesized map-entry message (proto3 map
entry fields carry `LABEL_OPTIONAL`). -/
def keyField : FieldDescriptor :=
  .mk "key" "M.Entry.key" .int32 .optional Option.none Option.none

/-- The value sub-field of a synthesized map-entry message. -/
def valField : FieldDescriptor :=
  .mk "value" "M.Entry.value" .string .optional Option.none Option.none

/-- A synthesized map-entry message type (`map_entry` option set). -/
def entryMsg : MessageDescriptor :=
  .mk "M.Entry" [keyField, valField] [] [] ⟨false, true⟩

/-- A map-typed field: a repeated field whose message type is the
map-entry above. -/
def mapField : FieldDescriptor :=
  .mk "m" "M.m" .message .repeated Option.none (some entryMsg)

/-- An overrides mapping keyed by the map-entry key sub-field's
fully-qualified name. -/
def ovK : Overrides := [("M.Entry.key", .literal .booleans)]

/-- C1 claim theorem (code bug exhibit).  `LABEL_MAPPINGS` sends
`optional` to `st.one_of` and `apply_modifier` passes it the single base
strategy, so the compiled generator for an optional field is
`one_of([base])`: it produces exactly the base generator's values and can
never produce the absence sentinel, contradicting the specified
"union of generate-a-value and generate-absence" (`repeated` and
`required` behave as specified).  The theorem evaluates the compiler at
the failing input, an optional bool field. -/
theorem claim1_optional_label_lacks_absence :
    field_to_strategy optBoolField [] [] = .ok (.oneOf [.booleans]) ∧
    LABEL_MAPPINGS .optional .booleans = .oneOf [.booleans] ∧
    LABEL_MAPPINGS .repeated .booleans = .lists .booleans ∧
    LABEL_MAPPINGS .required .booleans = .booleans ∧
    CanProduce [] [] (.oneOf [.booleans]) (.bool true) ∧
    CanProduce [] [] (.oneOf [.booleans]) (.bool false) ∧
    ¬ CanProduce [] [] (.oneOf [.booleans]) Value.none := by
  refine ⟨?_, rfl, rfl, rfl, ?_, ?_, ?_⟩
  · simp [field_to_strategy, field_to_strategy_raw, optBoolField, FieldDescriptor.type,
      FieldDescriptor.label, SCALAR_MAPPINGS, apply_modifier, LABEL_MAPPINGS]
  · exact CanProduce.oneOf [.booleans] .booleans (.bool true) (by simp)
      (CanProduce.booleans true)
  · exact CanProduce.oneOf [.booleans] .booleans (.bool false) (by simp)
      (CanProduce.booleans false)
  · intro h
    cases h with
    | oneOf alts s v hs hv =>
      rw [List.mem_singleton] at hs
      subst hs
      cases hv

/-- C3 counterexample: a parent with no directly nested message types.
All siblings are (vacuously) loaded, yet `load_module_into_env` returns
`False`, because the `is_loaded = True` assignment sits inside the
`for __ in range(total_messages)` loop, whose body never runs when
`total_messages = 0`. -/
theorem claim3_counterexample :
    loadParent ⟨[], []⟩ [] [] 1 = .ok ([], false) := by
  simp [loadParent, MAX_LOAD_DEPTH, insertEnums, passes, List.enum, List.enumFrom]

/-- C3 amended claim: for every parent within the depth bound, all
directly nested siblings always load successfully in the FIRST pass
(compile-time `LookupError` cannot occur because message compilation is
deferred), and the returned boolean equals "the sibling list is
nonempty" — i.e. the claimed "true iff all siblings loaded" holds for
nonempty levels but fails for empty ones, where the function returns
false despite vacuous success.  The second conjunct shows a single pass
settles every sibling, so the loop's N-pass bound is respected (the
bound is never exercised past the first pass). -/
theorem claim3_loader_flag (p : Parent) (env : Env) (ov : Overrides) (d : Nat)
    (hle : d ≤ MAX_LOAD_DEPTH) (hfits : fitsList p.nested_types (d + 1) = true) :
    loadParent p env ov d = .ok (env ++ parentEmit p ov, !p.nested_types.isEmpty) ∧
    (∀ k env1, passes (fun m e => loadParent m.toParent e ov (d + 1))
        p.nested_types.enum (Nat.succ k) [] env1 =
      .ok (env1 ++ emitList p.nested_types ov, true)) := by
  constructor
  · exact loadParent_fits p env ov d hle hfits
  · intro k env1
    cases hn : p.nested_types with
    | nil =>
      rw [passes]
      simp [List.enum, List.enumFrom, onePass, emitList]
    | cons m rest =>
      have hload : ∀ q ∈ (List.enumFrom 0 (m :: rest)), ∀ e,
          loadParent q.2.toParent e ov (d + 1) =
            .ok (e ++ emit q.2 ov, !q.2.nested_types.isEmpty) := by
        intro q hq e
        have hqm : q.2 ∈ m :: rest := mem_of_mem_enumFrom (m :: rest) 0 q hq
        have hqfits : fits q.2 (d + 1) = true :=
          (fitsList_iff p.nested_types (d + 1)).mp hfits q.2 (hn ▸ hqm)
        obtain ⟨hd1, hnest⟩ := (fits_iff q.2 (d + 1)).mp hqfits
        rw [loadParent_fits q.2.toParent e ov (d + 1) hd1
          (by rw [MessageDescriptor.toParent]; exact hnest), parentEmit_toParent]
        rfl
      have hnd : ((List.enumFrom 0 (m :: rest)).map Prod.fst).Nodup := by
        rw [enumFrom_map_fst]
        exact List.nodup_range' _ _
      rw [List.enum]
      rw [passes_first (fun mm e => loadParent mm.toParent e ov (d + 1))
        (fun mm => emit mm ov) (fun mm => !mm.nested_types.isEmpty)
        (List.enumFrom 0 (m :: rest)) k env1 hload hnd]
      rw [blocks_enumFrom]

/-- C3 witness: the amended theorem applied to a parent with one leaf
nested message at depth 1. -/
theorem claim3_loader_flag_witness :
    loadParent ⟨[], [MessageDescriptor.mk "W" [] [] [] ⟨false, false⟩]⟩ [] [] 1 =
      .ok ([("W", .deferredMessage (.mk "W" [] [] [] ⟨false, false⟩))], true) := by
  have h := (claim3_loader_flag ⟨[], [MessageDescriptor.mk "W" [] [] [] ⟨false, false⟩]⟩
    [] [] 1 (by norm_num [MAX_LOAD_DEPTH])
    (by simp [fitsList, fits, MAX_LOAD_DEPTH, MessageDescriptor.nested_types])).1
  rw [h]
  simp [parentEmit, emitList, emit, enumEntries, MessageDescriptor.enum_types,
    MessageDescriptor.nested_types, MessageDescriptor.full_name, message_to_strategy]

/-- C5 claim theorem: every scalar integer kind's table entry is the
range-constrained integer generator with the documented bounds (32-bit
signed kinds over [-(2^31-1), 2^31-1], 64-bit signed over
[-(2^63-1), 2^63-1], unsigned 32/64-bit over [0, 2^32-1] / [0, 2^64-1]),
the single-precision float kind is clipped to ±(2−2⁻²³)·2¹²⁷, and every
value those generators can produce lies within the bounds. -/
theorem claim5_scalar_ranges :
    SCALAR_MAPPINGS .int32 = some (.integers (-(2 ^ 31 - 1)) (2 ^ 31 - 1)) ∧
    SCALAR_MAPPINGS .sint32 = some (.integers (-(2 ^ 31 - 1)) (2 ^ 31 - 1)) ∧
    SCALAR_MAPPINGS .sfixed32 = some (.integers (-(2 ^ 31 - 1)) (2 ^ 31 - 1)) ∧
    SCALAR_MAPPINGS .int64 = some (.integers (-(2 ^ 63 - 1)) (2 ^ 63 - 1)) ∧
    SCALAR_MAPPINGS .sint64 = some (.integers (-(2 ^ 63 - 1)) (2 ^ 63 - 1)) ∧
    SCALAR_MAPPINGS .sfixed64 = some (.integers (-(2 ^ 63 - 1)) (2 ^ 63 - 1)) ∧
    SCALAR_MAPPINGS .uint32 = some (.integers 0 (2 ^ 32 - 1)) ∧
    SCALAR_MAPPINGS .fixed32 = some (.integers 0 (2 ^ 32 - 1)) ∧
    SCALAR_MAPPINGS .uint64 = some (.integers 0 (2 ^ 64 - 1)) ∧
    SCALAR_MAPPINGS .fixed64 = some (.integers 0 (2 ^ 64 - 1)) ∧
    SCALAR_MAPPINGS .float =
      some (.floats (some (-(2 - 2 ^ (-23 : ℤ)) * 2 ^ (127 : ℕ),
        (2 - 2 ^ (-23 : ℤ)) * 2 ^ (127 : ℕ)))) ∧
    (∀ (env : Env) (ov : Overrides) (lo hi : Int) (v : Value),
      CanProduce env ov (.integers lo hi) v → ∃ n, v = .int n ∧ lo ≤ n ∧ n ≤ hi) ∧
    (∀ (env : Env) (ov : Overrides) (lo hi : ℚ) (v : Value),
      CanProduce env ov (.floats (some (lo, hi))) v →
        ∃ q, v = .rat q ∧ lo ≤ q ∧ q ≤ hi) := by
  refine ⟨?_, ?_, ?_, ?_, ?_, ?_, rfl, rfl, rfl, rfl, rfl, ?_, ?_⟩
  · norm_num [SCALAR_MAPPINGS, RANGE32_MIN, RANGE32_MAX]
  · norm_num [SCALAR_MAPPINGS, RANGE32_MIN, RANGE32_MAX]
  · norm_num [SCALAR_MAPPINGS, RANGE32_MIN, RANGE32_MAX]
  · norm_num [SCALAR_MAPPINGS, RANGE64_MIN, RANGE64_MAX]
  · norm_num [SCALAR_MAPPINGS, RANGE64_MIN, RANGE64_MAX]
  · norm_num [SCALAR_MAPPINGS, RANGE64_MIN, RANGE64_MAX]
  · intro env ov lo hi v h
    cases h with
    | integers lo hi n h1 h2 => exact ⟨n, rfl, h1, h2⟩
  · intro env ov lo hi v h
    cases h with
    | floats_bounded lo hi q h1 h2 => exact ⟨q, rfl, h1, h2⟩

/-- C5 witness: the range conjunct applied to the 32-bit signed
generator producing 0. -/
theorem claim5_scalar_ranges_witness :
    ∃ n, Value.int 0 = .int n ∧ -(2 ^ 31 - 1) ≤ n ∧ n ≤ 2 ^ 31 - 1 :=
  claim5_scalar_ranges.2.2.2.2.2.2.2.2.2.2.2.1 [] [] (-(2 ^ 31 - 1)) (2 ^ 31 - 1)
    (.int 0) (CanProduce.integers _ _ 0 (by norm_num) (by norm_num))

/-- C6 claim theorem: the override gate's contract.  With no overrides
(or no entry for the entity's fully-qualified name) the underlying
compile computation's result is returned unchanged; a matched
non-invocable override (a literal strategy) is returned directly and the
underlying computation is never consulted (the result is the same for
every underlying computation); a matched invocable override is applied
to the originally-computed strategy.  The last two conjuncts show the
gate is what `field_to_strategy` and `enum_to_strategy` actually go
through. -/
theorem claim6_override_gate (nm : String) (ov : Overrides)
    (f : Unit → Except Exc Strategy) :
    ((ov = [] ∨ lookupOv ov nm = Option.none) → overridable nm ov f = f ()) ∧
    (∀ s, lookupOv ov nm = some (.literal s) →
      overridable nm ov f = .ok s ∧
      ∀ g : Unit → Except Exc Strategy, overridable nm ov g = .ok s) ∧
    (∀ t, lookupOv ov nm = some (.transform t) →
      overridable nm ov f = (f ()).map t) ∧
    (∀ (fd : FieldDescriptor) (env : Env),
      field_to_strategy fd env ov =
        overridable fd.full_name ov (fun _ => field_to_strategy_raw fd env)) ∧
    (∀ e : EnumDescriptor,
      enum_to_strategy e ov =
        overridable e.full_name ov (fun _ => .ok (.sampledFrom e.values))) := by
  refine ⟨?_, ?_, ?_, ?_, fun e => rfl⟩
  · rintro (rfl | hnone)
    · rfl
    · rw [overridable]
      by_cases he : ov.isEmpty
      · simp [he]
      · simp [he, hnone]
  · intro s hs
    have hne : ov.isEmpty = false := by
      cases ov
      · simp [lookupOv] at hs
      · rfl
    constructor
    · rw [overridable]
      simp [hne, hs]
    · intro g
      rw [overridable]
      simp [hne, hs]
  · intro t ht
    have hne : ov.isEmpty = false := by
      cases ov
      · simp [lookupOv] at ht
      · rfl
    rw [overridable]
    simp [hne, ht]
  · intro fd env
    rw [field_to_strategy, overridable]

/-- C6 witness: the gate applied with a literal override present. -/
theorem claim6_override_gate_witness :
    overridable "n" [("n", .literal .booleans)]
      (fun _ => .ok .text) = .ok .booleans :=
  ((claim6_override_gate "n" [("n", .literal .booleans)]
    (fun _ => .ok .text)).2.1 .booleans (by simp [lookupOv])).1

/-- C7 claim theorem: every value a message's deferred strategy can
produce is built by the `buildable` builder from one sample per declared
field (paired with the field's name), and the builder passes exactly the
pairs whose sampled value is not the absence sentinel: no sentinel pair
survives, and every non-sentinel pair is passed through by name. -/
theorem claim7_builder_omits_absent (env : Env) (ov : Overrides)
    (m : MessageDescriptor) (v : Value)
    (h : CanProduce env ov (.deferredMessage m) v) :
    ∃ vals, SampledFields env ov m.fields vals ∧
      v = builder m.full_name vals ∧
      builder m.full_name vals =
        .message m.full_name (vals.filter (fun p => !p.2.isNone)) ∧
      (∀ p ∈ vals.filter (fun p => !p.2.isNone), p.2.isNone = false) ∧
      (∀ p ∈ vals, p.2.isNone = false →
        p ∈ vals.filter (fun p => !p.2.isNone)) := by
  cases h with
  | message m vals hs =>
    refine ⟨vals, hs, rfl, rfl, ?_, ?_⟩
    · intro p hp
      have := (List.mem_filter.mp hp).2
      simpa using this
    · intro p hp hn
      exact List.mem_filter.mpr ⟨hp, by simp [hn]⟩

/-- A deprecated message type: any field referencing it compiles to the
always-absent strategy. -/
def depMsg : MessageDescriptor := .mk "D" [] [] [] ⟨true, false⟩

/-- A required bool field of the witness message. -/
def fieldB : FieldDescriptor :=
  .mk "b" "M2.b" .bool .required Option.none Option.none

/-- A field referencing the deprecated message type: its strategy is
`st.none()`, so it samples to the absence sentinel. -/
def fieldD : FieldDescriptor :=
  .mk "d" "M2.d" .message .optional Option.none (some depMsg)

/-- A message with one always-present and one always-absent field. -/
def msgM2 : MessageDescriptor := .mk "M2" [fieldB, fieldD] [] [] ⟨false, false⟩

/-- C7 witness: sampling `msgM2` yields an instance built from the bool
field only — the absent field is omitted entirely — and the claim
theorem applied to that sample. -/
theorem claim7_builder_omits_absent_witness :
    CanProduce [] [] (.deferredMessage msgM2) (.message "M2" [("b", .bool true)]) ∧
    ∃ vals, SampledFields [] [] msgM2.fields vals ∧
      Value.message "M2" [("b", .bool true)] = builder msgM2.full_name vals ∧
      builder msgM2.full_name vals =
        .message msgM2.full_name (vals.filter (fun p => !p.2.isNone)) ∧
      (∀ p ∈ vals.filter (fun p => !p.2.isNone), p.2.isNone = false) ∧
      (∀ p ∈ vals, p.2.isNone = false →
        p ∈ vals.filter (fun p => !p.2.isNone)) := by
  have hfB : field_to_strategy fieldB [] [] = .ok .booleans := by
    simp [field_to_strategy, field_to_strategy_raw, fieldB, FieldDescriptor.type,
      FieldDescriptor.label, SCALAR_MAPPINGS, apply_modifier, LABEL_MAPPINGS]
  have hfD : field_to_strategy fieldD [] [] = .ok .none_ := by
    simp [field_to_strategy, field_to_strategy_raw, fieldD, FieldDescriptor.type,
      FieldDescriptor.message_type, SCALAR_MAPPINGS, depMsg, MessageDescriptor.options]
  have hderiv : CanProduce [] [] (.deferredMessage msgM2)
      (.message "M2" [("b", .bool true)]) := by
    have hs : SampledFields [] [] msgM2.fields
        [("b", .bool true), ("d", Value.none)] := by
      have h1 : SampledFields [] [] [fieldD] [("d", Value.none)] :=
        SampledFields.cons fieldD [] Value.none [] .none_ hfD CanProduce.none_
          SampledFields.nil
      exact SampledFields.cons fieldB [fieldD] (.bool true)
        [("d", Value.none)] .booleans hfB (CanProduce.booleans true) h1
    have := @CanProduce.message [] [] msgM2
      [("b", .bool true), ("d", Value.none)] hs
    simpa [builder, msgM2, MessageDescriptor.full_name, Value.isNone] using this
  exact ⟨hderiv, claim7_builder_omits_absent [] [] msgM2 _ hderiv⟩

/-- A message descriptor referenced by `msgX` but never loaded into the
environment. -/
def missingRef : MessageDescriptor := .mk "Missing" [] [] [] ⟨false, false⟩

/-- A field of `msgX` referencing the never-loaded message type. -/
def fieldG : FieldDescriptor :=
  .mk "g" "X.g" .message .required Option.none (some missingRef)

/-- A message whose only field references a type absent from the
environment. -/
def msgX : MessageDescriptor := .mk "X" [fieldG] [] [] ⟨false, false⟩

/-- A module containing only `msgX`. -/
def modX : ProtoModule := ⟨[msgX], []⟩

/-- The environment produced by loading `modX`. -/
def envX : Env := [("X", .deferredMessage msgX)]

/-- C4 claim theorem: loading never raises the not-found condition —
`loadParent` can only return successfully or fail with the
nesting-depth exception (first conjunct); within the depth bound the
very first pass loads every sibling and the whole load succeeds, no
matter what the environment already contains (second and third
conjuncts, quantified over every starting environment); and the
not-found `LookupError` for a missing reference surfaces only when the
compiled deferred strategy is forced: loading `modX` succeeds and
inserts `msgX`'s strategy even though `Missing` is nowhere in the
environment, forcing the deferred body then raises `LookupError`, and no
value can be sampled from it. -/
theorem claim4_deferred_compilation :
    (∀ (p : Parent) (env : Env) (ov : Overrides) (d : Nat),
      loadParent p env ov d ≠ .error .lookupError) ∧
    (∀ (p : Parent) (env : Env) (ov : Overrides) (d : Nat),
      d ≤ MAX_LOAD_DEPTH → fitsList p.nested_types (d + 1) = true →
      onePass (fun m e => loadParent m.toParent e ov (d + 1))
          p.nested_types.enum [] env =
        .ok (env ++ emitList p.nested_types ov,
          (p.nested_types.enum).map Prod.fst) ∧
      loadParent p env ov d = .ok (env ++ parentEmit p ov, !p.nested_types.isEmpty)) ∧
    modules_to_strategies [modX] [] = .ok envX ∧
    force msgX envX [] = .error .lookupError ∧
    ¬ ∃ v, CanProduce envX [] (.deferredMessage msgX) v := by
  have hG : field_to_strategy fieldG envX [] = .error .lookupError := by
    simp [field_to_strategy, field_to_strategy_raw, fieldG, FieldDescriptor.type,
      FieldDescriptor.message_type, SCALAR_MAPPINGS, missingRef,
      MessageDescriptor.options, MessageDescriptor.full_name,
      find_strategy_in_env, envX, lookupName, Except.map]
  refine ⟨?_, ?_, ?_, ?_, ?_⟩
  · intro p env ov d h
    rcases loadParent_cases p env ov d with ⟨r, hr⟩ | hr
    · rw [hr] at h; exact absurd h (by simp)
    · rw [hr] at h
      exact absurd (Except.error.inj h) (by simp)
  · intro p env ov d hle hfits
    have hload : ∀ q ∈ p.nested_types.enum, ∀ e,
        loadParent q.2.toParent e ov (d + 1) =
          .ok (e ++ emit q.2 ov, !q.2.nested_types.isEmpty) := by
      intro q hq e
      have hqm : q.2 ∈ p.nested_types :=
        mem_of_mem_enumFrom p.nested_types 0 q (by rw [← List.enum]; exact hq)
      have hqfits : fits q.2 (d + 1) = true :=
        (fitsList_iff p.nested_types (d + 1)).mp hfits q.2 hqm
      obtain ⟨hd1, hnest⟩ := (fits_iff q.2 (d + 1)).mp hqfits
      rw [loadParent_fits q.2.toParent e ov (d + 1) hd1
        (by rw [MessageDescriptor.toParent]; exact hnest), parentEmit_toParent]
      rfl
    have hnd : ((p.nested_types.enum).map Prod.fst).Nodup := by
      rw [List.enum, enumFrom_map_fst]
      exact List.nodup_range' _ _
    constructor
    · rw [onePass_closed (fun m e => loadParent m.toParent e ov (d + 1))
        (fun mm => emit mm ov) (fun mm => !mm.nested_types.isEmpty)
        p.nested_types.enum [] env hload hnd (by simp)]
      rw [List.enum, blocks_enumFrom]
      simp
    · exact loadParent_fits p env ov d hle hfits
  · simp [modules_to_strategies, mtsGo, modulePass, load_module_into_env, modX,
      ProtoModule.toParent, loadParent, MAX_LOAD_DEPTH, insertEnums, passes, onePass,
      List.enum, List.enumFrom, msgX, MessageDescriptor.toParent,
      MessageDescriptor.enum_types, MessageDescriptor.nested_types,
      message_to_strategy, MessageDescriptor.full_name, envX]
  · rw [force]
    rw [show msgX.fields = [fieldG] from rfl]
    rw [forceFields, hG]
  · rintro ⟨v, hv⟩
    cases hv with
    | message m vals hs =>
      rw [show msgX.fields = [fieldG] from rfl] at hs
      cases hs with
      | cons f fs v' vs s h1 h2 h3 =>
        rw [hG] at h1
        exact absurd h1 (by simp)

/-- C4 witness: the universally quantified conjuncts applied to a
concrete one-message parent at depth 1 and empty environment. -/
theorem claim4_deferred_compilation_witness :
    loadParent ⟨[], [msgX]⟩ [] [] 1 ≠ .error .lookupError ∧
    loadParent ⟨[], [msgX]⟩ [] [] 1 = .ok (parentEmit ⟨[], [msgX]⟩ [], true) := by
  constructor
  · exact claim4_deferred_compilation.1 ⟨[], [msgX]⟩ [] [] 1
  · have h := (claim4_deferred_compilation.2.1 ⟨[], [msgX]⟩ [] [] 1
      (by norm_num [MAX_LOAD_DEPTH])
      (by simp [fitsList, fits, MAX_LOAD_DEPTH, msgX, MessageDescriptor.nested_types])).2
    rw [h]
    simp

/-- C9 claim theorem: a load call past the depth bound raises the
nesting-depth exception immediately — before any enum or message of that
subtree is compiled or inserted (first conjunct, an equation on the
call itself); and for a module containing a too-deeply-nested message
type, the exception is not caught by the loader's `except LookupError`
retry handling and propagates out of the top-level
`modules_to_strategies` call (second conjunct). -/
theorem claim9_nesting_depth :
    (∀ (p : Parent) (env : Env) (ov : Overrides) (d : Nat),
      MAX_LOAD_DEPTH < d → loadParent p env ov d = .error .nestingDepth) ∧
    (∀ (A : ProtoModule) (ov : Overrides),
      (∃ m ∈ A.message_types, fits m 2 = false) →
      modules_to_strategies [A] ov = .error .nestingDepth) := by
  constructor
  · exact fun p env ov d h => loadParent_depth p env ov d h
  · intro A ov hbad
    have hfl : fitsList A.toParent.nested_types 2 = false := by
      rw [ProtoModule.toParent]
      exact (fitsList_eq_false_iff _ _).mpr hbad
    have herr : load_module_into_env A [] ov = .error .nestingDepth := by
      rw [load_module_into_env]
      exact loadParent_err A.toParent [] ov 1 (by norm_num [MAX_LOAD_DEPTH]) hfl
    simp [modules_to_strategies, mtsGo, modulePass, List.enum, List.enumFrom, herr]

/-- Five levels of nested message types: loading the innermost would
happen at depth 6, past the bound. -/
def deep5 : MessageDescriptor := .mk "N5" [] [] [] ⟨false, false⟩
def deep4 : MessageDescriptor := .mk "N4" [] [deep5] [] ⟨false, false⟩
def deep3 : MessageDescriptor := .mk "N3" [] [deep4] [] ⟨false, false⟩
def deep2 : MessageDescriptor := .mk "N2" [] [deep3] [] ⟨false, false⟩
def deep1 : MessageDescriptor := .mk "N1" [] [deep2] [] ⟨false, false⟩

/-- A module whose schema nesting exceeds the supported bound. -/
def modDeep : ProtoModule := ⟨[deep1], []⟩

/-- C9 witness: the claim theorem applied at depth 6 and to the
too-deep module. -/
theorem claim9_nesting_depth_witness :
    loadParent ⟨[], []⟩ [] [] 6 = .error .nestingDepth ∧
    modules_to_strategies [modDeep] [] = .error .nestingDepth := by
  constructor
  · exact claim9_nesting_depth.1 ⟨[], []⟩ [] [] 6 (by norm_num [MAX_LOAD_DEPTH])
  · refine claim9_nesting_depth.2 modDeep [] ⟨deep1, by simp [modDeep], ?_⟩
    simp [fits, fitsList, deep1, deep2, deep3, deep4, deep5,
      MessageDescriptor.nested_types, MAX_LOAD_DEPTH]

theorem field_to_strategy_no_override (f : FieldDescriptor) (env : Env)
    (ov : Overrides) (hov : lookupOv ov f.full_name = Option.none) :
    field_to_strategy f env ov = field_to_strategy_raw f env := by
  rw [field_to_strategy]
  by_cases he : ov.isEmpty
  · simp [he]
  · simp [he, hov]

theorem field_to_strategy_raw_map (f : FieldDescriptor) (env : Env)
    (mt : MessageDescriptor) (k v : FieldDescriptor)
    (ht : f.type = .message) (hmt : f.message_type = some mt)
    (hdep : mt.options.deprecated = false) (hmap : mt.options.map_entry = true)
    (hkv : mt.fields = [k, v]) :
    ∀ ks vs, field_to_strategy k env [] = .ok ks →
      field_to_strategy v env [] = .ok vs →
      field_to_strategy_raw f env =
        .ok (.dictionaries (.filterNonNull ks) (.filterNonNull vs)) := by
  intro ks vs hks hvs
  cases f with
  | mk nm fn t l et mto =>
    simp only [FieldDescriptor.type] at ht
    simp only [FieldDescriptor.message_type] at hmt
    subst ht
    subst hmt
    cases mt with
    | mk mnm mflds mnts mets mo =>
      simp only [MessageDescriptor.fields] at hkv
      simp only [MessageDescriptor.options] at hdep hmap
      subst hkv
      cases mo with
      | mk dep me =>
        simp only [MessageOptions.deprecated] at hdep
        simp only [MessageOptions.map_entry] at hmap
        subst hdep
        subst hmap
        rw [field_to_strategy_raw]
        simp [SCALAR_MAPPINGS, FieldDescriptor.type, FieldDescriptor.message_type,
          MessageDescriptor.options, MessageDescriptor.fields, hks, hvs]

theorem field_to_strategy_literal (g : FieldDescriptor) (env : Env)
    (ov : Overrides) (s : Strategy)
    (h : lookupOv ov g.full_name = some (.literal s)) :
    field_to_strategy g env ov = .ok s := by
  have hne : ov.isEmpty = false := by
    cases ov
    · simp [lookupOv] at h
    · rfl
  rw [field_to_strategy]
  simp [hne, h]

/-- C2 counterexample: an override keyed by a map-entry key sub-field's
fully-qualified name is honored when that field is compiled directly,
but ignored when the same field is compiled as the key of its map field
— the recursive calls in the map-entry branch pass no `overrides`, so
the compiled key sub-generator is the default one, not the override. -/
theorem claim2_counterexample :
    lookupOv ovK keyField.full_name = some (.literal .booleans) ∧
    field_to_strategy keyField [] ovK = .ok .booleans ∧
    field_to_strategy mapField [] ovK =
      .ok (.dictionaries
        (.filterNonNull (.oneOf [.integers RANGE32_MIN RANGE32_MAX]))
        (.filterNonNull (.oneOf [.text]))) ∧
    Strategy.filterNonNull (.oneOf [.integers RANGE32_MIN RANGE32_MAX]) ≠
      .filterNonNull .booleans := by
  refine ⟨by simp [ovK, lookupOv, keyField, FieldDescriptor.full_name], ?_, ?_, by simp⟩
  · simp [field_to_strategy, keyField, ovK, FieldDescriptor.full_name, lookupOv]
  · simp [field_to_strategy, field_to_strategy_raw, mapField, keyField, valField,
      entryMsg, ovK, FieldDescriptor.full_name, FieldDescriptor.type,
      FieldDescriptor.label, FieldDescriptor.message_type, MessageDescriptor.options,
      MessageDescriptor.fields, lookupOv, SCALAR_MAPPINGS, apply_modifier,
      LABEL_MAPPINGS]

/-- C2 amended claim: the overrides mapping is threaded unchanged
through the loader and through per-field compilation of message bodies
(a literal override keyed by a field's fully-qualified name takes effect
wherever that field is compiled with the overrides in hand — third
conjunct), EXCEPT that the key and value sub-fields of a map-entry
message type are compiled by recursive calls that pass no overrides: the
whole compilation below a map field is override-free (first conjunct),
and the sub-generators are whatever the no-override compilation yields
(second conjunct). -/
theorem claim2_override_threading (f : FieldDescriptor) (env : Env)
    (ov : Overrides) (mt : MessageDescriptor) (k v : FieldDescriptor)
    (ht : f.type = .message) (hmt : f.message_type = some mt)
    (hdep : mt.options.deprecated = false) (hmap : mt.options.map_entry = true)
    (hkv : mt.fields = [k, v]) (hov : lookupOv ov f.full_name = Option.none) :
    field_to_strategy f env ov = field_to_strategy f env [] ∧
    (∀ ks vs, field_to_strategy k env [] = .ok ks →
      field_to_strategy v env [] = .ok vs →
      field_to_strategy f env ov =
        .ok (.dictionaries (.filterNonNull ks) (.filterNonNull vs))) ∧
    (∀ (g : FieldDescriptor) (env' : Env) (s : Strategy),
      lookupOv ov g.full_name = some (.literal s) →
      field_to_strategy g env' ov = .ok s) := by
  refine ⟨?_, ?_, ?_⟩
  · rw [field_to_strategy_no_override f env ov hov,
      field_to_strategy_no_override f env [] rfl]
  · intro ks vs hks hvs
    rw [field_to_strategy_no_override f env ov hov]
    exact field_to_strategy_raw_map f env mt k v ht hmt hdep hmap hkv ks vs hks hvs
  · exact fun g env' s h => field_to_strategy_literal g env' ov s h

/-- C2 witness: the amended theorem applied to the concrete map field
with an override on its key sub-field. -/
theorem claim2_override_threading_witness :
    field_to_strategy mapField [] ovK = field_to_strategy mapField [] [] ∧
    field_to_strategy keyField [] ovK = .ok .booleans := by
  have h := claim2_override_threading mapField [] ovK entryMsg keyField valField
    rfl rfl rfl rfl rfl
    (by simp [ovK, lookupOv, mapField, FieldDescriptor.full_name])
  refine ⟨h.1, h.2.2 keyField [] .booleans
    (by simp [ovK, lookupOv, keyField, FieldDescriptor.full_name])⟩

/-- A map-entry message type that is also marked deprecated. -/
def depEntry : MessageDescriptor := .mk "M.DepEntry" [keyField, valField] [] [] ⟨true, true⟩

/-- A field whose message type is the deprecated map-entry. -/
def depMapField : FieldDescriptor :=
  .mk "dm" "M.dm" .message .repeated Option.none (some depEntry)

/-- C8 counterexample: for a field whose referenced message type is
marked map-entry but also deprecated, the compiler returns `st.none()`
— the deprecated check precedes the map-entry check — so the compiled
generator is not a dictionary-of generator as the claim, quantified over
every map-entry field, states. -/
theorem claim8_counterexample :
    depEntry.options.map_entry = true ∧
    field_to_strategy depMapField [] [] = .ok .none_ ∧
    ∀ a b : Strategy, Strategy.none_ ≠ .dictionaries a b := by
  refine ⟨rfl, ?_, by intro a b h; cases h⟩
  simp [field_to_strategy, field_to_strategy_raw, depMapField, depEntry,
    FieldDescriptor.type, FieldDescriptor.message_type, MessageDescriptor.options,
    SCALAR_MAPPINGS]

/-- C8 amended claim: for every field whose kind is message-reference,
whose referenced message type is marked map-entry AND NOT deprecated,
and which carries no override of its own, the compiled generator is the
dictionary-of generator pairing the recursively compiled key and value
sub-generators, each filtered through `non_null`; and every value such a
dictionary generator can produce is a dict none of whose keys or values
is the absence sentinel. -/
theorem claim8_map_strategy (f : FieldDescriptor) (env : Env)
    (ov : Overrides) (mt : MessageDescriptor) (k v : FieldDescriptor)
    (ht : f.type = .message) (hmt : f.message_type = some mt)
    (hdep : mt.options.deprecated = false) (hmap : mt.options.map_entry = true)
    (hkv : mt.fields = [k, v]) (hov : lookupOv ov f.full_name = Option.none) :
    (∀ ks vs, field_to_strategy k env [] = .ok ks →
      field_to_strategy v env [] = .ok vs →
      field_to_strategy f env ov =
        .ok (.dictionaries (.filterNonNull ks) (.filterNonNull vs))) ∧
    (∀ (ks vs : Strategy) (val : Value),
      CanProduce env ov (.dictionaries (.filterNonNull ks) (.filterNonNull vs)) val →
      ∃ entries, val = .dict entries ∧
        ∀ p ∈ entries, p.1.isNone = false ∧ p.2.isNone = false) := by
  constructor
  · intro ks vs hks hvs
    rw [field_to_strategy_no_override f env ov hov]
    exact field_to_strategy_raw_map f env mt k v ht hmt hdep hmap hkv ks vs hks hvs
  · intro ks vs val h
    cases h with
    | dictionaries ks' vs' entries hk hv =>
      refine ⟨entries, rfl, fun p hp => ⟨?_, ?_⟩⟩
      · cases hk p hp with
        | filtered s v hcv hnone => exact hnone
      · cases hv p hp with
        | filtered s v hcv hnone => exact hnone

/-- C8 witness: the amended theorem applied to the concrete map field
(no overrides) and to a concretely produced dictionary sample. -/
theorem claim8_map_strategy_witness :
    field_to_strategy mapField [] [] =
      .ok (.dictionaries
        (.filterNonNull (.oneOf [.integers RANGE32_MIN RANGE32_MAX]))
        (.filterNonNull (.oneOf [.text]))) ∧
    (∃ entries, Value.dict [] = .dict entries ∧
      ∀ p ∈ entries, p.1.isNone = false ∧ p.2.isNone = false) := by
  have h := claim8_map_strategy mapField [] [] entryMsg keyField valField
    rfl rfl rfl rfl rfl rfl
  constructor
  · refine h.1 _ _ ?_ ?_
    · simp [field_to_strategy, field_to_strategy_raw, keyField,
        FieldDescriptor.type, FieldDescriptor.label, SCALAR_MAPPINGS,
        apply_modifier, LABEL_MAPPINGS]
    · simp [field_to_strategy, field_to_strategy_raw, valField,
        FieldDescriptor.type, FieldDescriptor.label, SCALAR_MAPPINGS,
        apply_modifier, LABEL_MAPPINGS]
  · exact h.2 (.oneOf [.integers RANGE32_MIN RANGE32_MAX]) (.oneOf [.text])
      (.dict []) (CanProduce.dictionaries _ _ [] (by simp) (by simp))

/-- C10 claim theorem: for two modules loaded in either order (with
globally unique type names, as protobuf guarantees, and nesting within
the depth bound), the top-level compiler succeeds both ways, the two
resulting environments answer every lookup identically, and both
contain the compiled deferred generator of every message type of either
module — laziness makes the result independent of whether a referenced
type was already present when its referrer was compiled. -/
theorem claim10_order_independence (A B : ProtoModule) (ov : Overrides)
    (hA : fitsList A.message_types 2 = true) (hB : fitsList B.message_types 2 = true)
    (hnd : (moduleTypeNames A ++ moduleTypeNames B).Nodup) :
    ∃ eAB eBA, modules_to_strategies [A, B] ov = .ok eAB ∧
      modules_to_strategies [B, A] ov = .ok eBA ∧
      (∀ n, lookupName eAB n = lookupName eBA n) ∧
      (∀ m ∈ A.message_types, lookupName eAB m.full_name = some (.deferredMessage m)) ∧
      (∀ m ∈ B.message_types, lookupName eAB m.full_name = some (.deferredMessage m)) := by
  obtain ⟨hndA, hndB, hdisj⟩ := List.nodup_append.mp hnd
  refine ⟨_, _, mts_two_env A B ov hA hB, mts_two_env B A ov hB hA, ?_, ?_, ?_⟩
  · intro n
    rw [lookupName_pair (moduleEmit A ov) (moduleEmit B ov) _ _ n,
      lookupName_pair (moduleEmit B ov) (moduleEmit A ov) _ _ n]
    rcases hA' : lookupName (moduleEmit A ov) n with _ | sA <;>
      rcases hB' : lookupName (moduleEmit B ov) n with _ | sB
    · rfl
    · rfl
    · rfl
    · exact absurd (hdisj (keys_moduleEmit ov A n (mem_of_lookupName_some _ n sA hA'))
        (keys_moduleEmit ov B n (mem_of_lookupName_some _ n sB hB'))) (fun h => h)
  · intro m hm
    rw [lookupName_pair (moduleEmit A ov) (moduleEmit B ov) _ _ m.full_name]
    rw [lookup_moduleEmit ov A m hm hndA]
  · intro m hm
    rw [lookupName_pair (moduleEmit A ov) (moduleEmit B ov) _ _ m.full_name]
    have hmB : m.full_name ∈ moduleTypeNames B := by
      rw [moduleTypeNames]
      exact List.mem_append_right _ (full_name_mem_namesList B.message_types m hm)
    have hnone : lookupName (moduleEmit A ov) m.full_name = Option.none :=
      lookup_moduleEmit_none ov A m.full_name (fun hin => hdisj hin hmB)
    rw [hnone, lookup_moduleEmit ov B m hm hndB]

/-- A message in module `modA` whose only field references the type
defined in module `modB`. -/
def msgT : MessageDescriptor := .mk "T" [] [] [] ⟨false, false⟩
def fieldT : FieldDescriptor :=
  .mk "t" "A.t" .message .required Option.none (some msgT)
def msgRefT : MessageDescriptor := .mk "A" [fieldT] [] [] ⟨false, false⟩
def modA : ProtoModule := ⟨[msgRefT], []⟩
def modB : ProtoModule := ⟨[msgT], []⟩

/-- C10 witness: the claim theorem applied to the concrete
cross-referencing pair of modules. -/
theorem claim10_order_independence_witness :
    ∃ eAB eBA, modules_to_strategies [modA, modB] [] = .ok eAB ∧
      modules_to_strategies [modB, modA] [] = .ok eBA ∧
      (∀ n, lookupName eAB n = lookupName eBA n) ∧
      (∀ m ∈ modA.message_types, lookupName eAB m.full_name = some (.deferredMessage m)) ∧
      (∀ m ∈ modB.message_types, lookupName eAB m.full_name = some (.deferredMessage m)) := by
  apply claim10_order_independence modA modB []
  · simp [modA, fitsList, fits, MAX_LOAD_DEPTH, msgRefT, MessageDescriptor.nested_types]
  · simp [modB, fitsList, fits, MAX_LOAD_DEPTH, msgT, MessageDescriptor.nested_types]
  · simp [modA, modB, moduleTypeNames, namesList, msgTypeNames, msgRefT, msgT,
      MessageDescriptor.full_name, MessageDescriptor.enum_types,
      MessageDescriptor.nested_types]
